import Mathlib

/-!
Verification of the preprocessing pipeline of `notebooks/article_1.py`
(startup-success exploratory analysis).

The notebook mutates a single pandas dataframe through a linear sequence of
stages: column pruning, mean imputation, sign normalization (absolute value),
outlier flagging, categorical encoding, and date-to-day-offset conversion.
We embed each stage as a pure function over an association-list table model:

* a numeric table is `List (String × List ℚ)` (column name, column values);
* a column with missing values is `List (Option ℚ)` (`none` models NaN);
* a date column is `List ℤ` (days since an arbitrary epoch, which is exact
  because pandas `Timedelta.dt.days` of midnight-aligned dates is an integer).

Statistics: pandas `Series.mean` is the arithmetic mean and `Series.std` is
the sample standard deviation `sqrt(Σ(x-μ)² / (n-1))` (ddof = 1).  To stay in
ℚ, the comparison `|v − μ| > t·σ` from `identify_outliers` is embedded as the
equivalent `t·|t|·σ² < (v − μ)²` (both sides squared, the threshold by a
signed square): for `t ≥ 0` the two sides are nonnegative so squaring is an
order isomorphism, and for `t < 0` both formulations hold exactly unless
`σ = 0` and `v = μ`, in which case both fail.  With `n = 1` pandas yields
`σ = NaN` and the comparison is false; in the embedding the ℚ convention
`x / 0 = 0` gives `σ² = 0` while `v = μ`, so the flag is false as well.
-/

namespace StartupPipeline

/-- A numeric table: association list from column name to column values. -/
abbrev Table := List (String × List ℚ)

/-- Membership test for a column name, as pandas `col in dataframe.columns`. -/
def hasCol (T : Table) (c : String) : Bool :=
  T.any (fun p => p.1 == c)

/-- Look up a column by name (first entry with that name). -/
def getCol (T : Table) (c : String) : Option (List ℚ) :=
  (T.find? (fun p => p.1 == c)).map Prod.snd

/-- Column lookup with `[]` as default, as `dataframe[column]` after a
membership check has succeeded. -/
def getColD (T : Table) (c : String) : List ℚ :=
  (getCol T c).getD []

/-- Overwrite the column named `c` with `f` applied to its values, as the
pandas column assignment `dataframe[col] = f(dataframe[col])`. -/
def mapCol (T : Table) (c : String) (f : ℚ → ℚ) : Table :=
  T.map (fun p => if p.1 == c then (p.1, p.2.map f) else p)

/-- Source `apply_absolute_values(dataframe, columns)`: for each listed
column, if it is present, replace it by its elementwise absolute value
(`np.abs`); absent columns are skipped by the `if col in dataframe.columns`
guard. -/
def apply_absolute_values (T : Table) (cols : List String) : Table :=
  cols.foldl (fun acc col => if hasCol acc col then mapCol acc col (fun v => |v|) else acc) T

/-- Source `columns_to_abs`: the four age columns passed to
`apply_absolute_values`. -/
def columns_to_abs : List String :=
  ["age_first_funding_year", "age_last_funding_year",
   "age_first_milestone_year", "age_last_milestone_year"]

/-- Pandas `column.mean()`: arithmetic mean of the values. -/
def colMean (l : List ℚ) : ℚ :=
  l.sum / (l.length : ℚ)

/-- Square of pandas `column.std()` (sample standard deviation, ddof = 1):
`Σ (x − μ)² / (n − 1)`. -/
def colVar (l : List ℚ) : ℚ :=
  ((l.map (fun x => (x - colMean l) ^ 2)).sum) / ((l.length : ℚ) - 1)

/-- Source comparison `np.abs(column - mean) > threshold * std` for one value
`v` of column `l`, embedded in ℚ via signed squares:
`|v − μ| > t·σ  ↔  t·|t|·σ² < (v − μ)²` (see the header comment). -/
def flagValue (l : List ℚ) (t : ℚ) (v : ℚ) : Bool :=
  decide (t * |t| * colVar l < (v - colMean l) ^ 2)

/-- Source `is_outlier = (np.abs(column - mean) > threshold * std)`: the
per-column outlier flags for column `l` at threshold `t`. -/
def colFlags (l : List ℚ) (t : ℚ) : List Bool :=
  l.map (flagValue l t)

/-- One iteration of the loop in `identify_outliers`: skip an absent column
(`if column_name in dataframe`), otherwise OR the accumulated flags with the
column's flags (`dataframe['is_outlier'] |= is_outlier`). -/
def outlierStep (T : Table) (t : ℚ) (acc : List Bool) (c : String) : List Bool :=
  if hasCol T c then List.zipWith (fun a b => a || b) acc (colFlags (getColD T c) t)
  else acc

/-- Source `identify_outliers(dataframe, columns, threshold)`: initialize the
`is_outlier` column to all-`false` (`0`) over the `n` rows, then fold
`outlierStep` over the monitored columns.  The result is the final
`is_outlier` column. -/
def identify_outliers (T : Table) (cols : List String) (t : ℚ) (n : ℕ) : List Bool :=
  cols.foldl (outlierStep T t) (List.replicate n false)

/-- Source log-transform cell: for each variable the notebook computes
`log_variable = np.log(dataframe[variable] + 1)` into a local and hands it to
`sns.histplot`; the dataframe itself is never assigned to.  `np.log` is an
out-of-scope library routine, abstracted as the parameter `logf`.  The second
component is the list of histogram inputs, one per plotted variable. -/
def log_stage (logf : ℚ → ℚ) (T : Table) (vars : List String) : Table × List (List ℚ) :=
  (T, vars.map (fun c => (getColD T c).map (fun v => logf (v + 1))))

/-- Source `variables`: the four age columns whose log-transformed histograms
are rendered in the outlier-handling cell. -/
def log_columns : List String :=
  ["age_first_funding_year", "age_last_funding_year",
   "age_first_milestone_year", "age_last_milestone_year"]

/-- Model of the pandas library call `Series.unique()` used by
`create_mapping`: the distinct values of the column in order of first
appearance (documented pandas semantics: "uniques are returned in order of
appearance").  The fuel argument keeps the recursion structural; it is always
called with fuel equal to the list length. -/
def uniqueFuel : ℕ → List String → List String
  | 0, _ => []
  | _ + 1, [] => []
  | n + 1, a :: l => a :: uniqueFuel n (l.filter (fun x => !(x == a)))

/-- Source `unique_values = dataframe[column].unique()`. -/
def unique_values (l : List String) : List String :=
  uniqueFuel l.length l

/-- Source `create_mapping(column)`: the dictionary
`{value: i for i, value in enumerate(unique_values)}`, i.e. each distinct
value is mapped to its position in the first-appearance enumeration. -/
def create_mapping (l : List String) (v : String) : ℕ :=
  (unique_values l).indexOf v

/-- Source `dataframe[column] = dataframe[column].map(mapping)`: rewrite
every occurrence of each value with its integer code. -/
def encode_column (l : List String) : List ℕ :=
  l.map (create_mapping l)

/-- A table whose columns may contain missing values (`none` models NaN). -/
abbrev OTable := List (String × List (Option ℚ))

/-- Column lookup in a table with missing values. -/
def getOCol (T : OTable) (c : String) : Option (List (Option ℚ)) :=
  (T.find? (fun p => p.1 == c)).map Prod.snd

/-- Pandas `column.mean()` on a column with missing values: NaN entries are
skipped; the result is NaN (here `none`) when no value is present. -/
def colMeanOpt (l : List (Option ℚ)) : Option ℚ :=
  if (l.filterMap id).length = 0 then none
  else some ((l.filterMap id).sum / ((l.filterMap id).length : ℚ))

/-- Source `column.fillna(column.mean())`: the mean is computed on the column
before any replacement, then every missing entry is replaced by it.  When the
mean is NaN (no non-missing value) `fillna(NaN)` leaves the column as is. -/
def fillna (l : List (Option ℚ)) : List (Option ℚ) :=
  match colMeanOpt l with
  | none => l
  | some m => l.map (fun x => some (x.getD m))

/-- The assignment `dataframe[c] = dataframe[c].fillna(dataframe[c].mean())`. -/
def fill_col (T : OTable) (c : String) : OTable :=
  T.map (fun p => if p.1 == c then (p.1, fillna p.2) else p)

/-- Source imputation cell: fill `age_first_milestone_year` and
`age_last_milestone_year` with their means; `closed_at` is deliberately not
touched. -/
def impute_stage (T : OTable) : OTable :=
  fill_col (fill_col T ("age_first_milestone_year")) ("age_last_milestone_year")

/-- A table of date columns, dates as integer day numbers. -/
abbrev DTable := List (String × List ℤ)

/-- Source `columns_to_convert` (equally the column list of the
`reference_date` computation): the three date columns. -/
def dateCols : List String :=
  ["founded_at", "first_funding_at", "last_funding_at"]

/-- Date-column lookup with `[]` as default. -/
def getDateCol (T : DTable) (c : String) : List ℤ :=
  ((T.find? (fun p => p.1 == c)).map Prod.snd).getD []

/-- Membership test for a date-column name. -/
def hasDateCol (T : DTable) (c : String) : Bool :=
  T.any (fun p => p.1 == c)

/-- Pandas `Series.min` on dates: `none` on an empty column. -/
def minD : List ℤ → Option ℤ
  | [] => none
  | d :: l =>
    match minD l with
    | none => some d
    | some m => some (min d m)

/-- Source `reference_date = dataframe[[c1, c2, c3]].min().min()`: the
per-column minima, then the minimum of those (`filterMap id` drops the NaT of
an empty column, as pandas `min` skips NaT). -/
def reference_date (T : DTable) : Option ℤ :=
  minD ((dateCols.map (fun c => minD (getDateCol T c))).filterMap id)

/-- Source `(dataframe[column] - reference_date).dt.days`. -/
def to_days (r : ℤ) (l : List ℤ) : List ℤ :=
  l.map (fun d => d - r)

/-- Source date-conversion cell: append a `{column}_days` column of day
offsets for each date column, then drop the original date columns
(`dataframe.drop([...], axis=1, inplace=True)`).  The `none` branch is
unreachable under the hypotheses of `date_stage_spec` (the source raises a
`KeyError` before this point if the date columns are absent). -/
def date_stage (T : DTable) : DTable :=
  match reference_date T with
  | none => T
  | some r =>
      (T ++ dateCols.map (fun c => (c ++ "_days", to_days r (getDateCol T c)))).filter
        (fun p => !(dateCols.contains p.1))

/-- Concrete three-row-free date table used by the witness of
`date_stage_spec`. -/
def dateWitnessTable : DTable :=
  [("founded_at", [10]), ("first_funding_at", [1]), ("last_funding_at", [20])]

/-- Concrete one-column table used by the witnesses of the outlier-flagger
theorems. -/
def outlierWitnessTable : Table :=
  [("x", [1, 2, 3, 4, 100])]

lemma hasCol_of_mem {T : Table} {p : String × List ℚ} (hp : p ∈ T) : hasCol T p.1 = true :=
  List.any_eq_true.2 ⟨p, hp, by simp⟩

lemma apply_abs_eq (T : Table) (cols : List String) :
    apply_absolute_values T cols
      = T.map (fun p => if p.1 ∈ cols then (p.1, p.2.map (fun v => |v|)) else p) := by
  induction cols generalizing T with
  | nil => simp [apply_absolute_values]
  | cons c cs ih =>
    rw [apply_absolute_values, List.foldl_cons]
    show apply_absolute_values _ cs = _
    rw [ih]
    by_cases h : hasCol T c
    · simp only [h, if_pos]
      rw [mapCol, List.map_map]
      apply List.map_congr_left
      intro p _
      simp only [Function.comp]
      by_cases hc : p.1 = c
      · subst hc
        simp [List.map_map, abs_abs, Function.comp]
      · simp only [beq_iff_eq, hc, if_neg, if_false]
        by_cases hcs : p.1 ∈ cs
        · simp [hcs, hc]
        · simp [hcs, hc]
    · simp only [h, if_neg, Bool.false_eq_true, not_false_iff]
      apply List.map_congr_left
      intro p hp
      have hpc : p.1 ≠ c := by
        intro he
        rw [← he] at h
        exact h (hasCol_of_mem hp)
      simp [hpc]

lemma map_abs_of_nonneg {l : List ℚ} (h : ∀ v ∈ l, 0 ≤ v) :
    l.map (fun v => |v|) = l := by
  rw [List.map_congr_left (fun v hv => abs_of_nonneg (h v hv))]
  simp

lemma hasCol_iff_getCol {T : Table} {c : String} :
    hasCol T c = true ↔ ∃ l, getCol T c = some l := by
  rw [hasCol, List.any_eq_true, getCol]
  constructor
  · rintro ⟨p, hp, hpc⟩
    have hsome : (T.find? (fun p => p.1 == c)).isSome := by
      rw [List.find?_isSome]
      exact ⟨p, hp, hpc⟩
    obtain ⟨q, hq⟩ := Option.isSome_iff_exists.1 hsome
    exact ⟨q.2, by rw [hq]; rfl⟩
  · rintro ⟨l, hl⟩
    rcases hfind : T.find? (fun p => p.1 == c) with _ | q
    · simp [getCol, hfind] at hl
    · have hq : (q.1 == c) = true := by
        have := List.find?_some hfind
        simpa using this
      exact ⟨q, List.mem_of_find?_eq_some hfind, hq⟩

lemma getD_zipWith_or (a b : List Bool) (i : ℕ) (hia : i < a.length) (hib : i < b.length) :
    (List.zipWith (fun x y => x || y) a b).getD i false
      = (a.getD i false || b.getD i false) := by
  have hlen : i < (List.zipWith (fun x y : Bool => x || y) a b).length := by
    rw [List.length_zipWith]
    exact lt_min hia hib
  rw [List.getD_eq_getElem _ _ hlen, List.getD_eq_getElem _ _ hia, List.getD_eq_getElem _ _ hib,
    List.getElem_zipWith]

lemma outlier_fold_length (T : Table) (t : ℚ) (n : ℕ) (cols : List String)
    (hr : ∀ c ∈ cols, hasCol T c = true → (getColD T c).length = n) :
    ∀ acc : List Bool, acc.length = n → (cols.foldl (outlierStep T t) acc).length = n := by
  induction cols with
  | nil => intro acc h; exact h
  | cons c cs ih =>
    intro acc h
    rw [List.foldl_cons]
    apply ih (fun d hd => hr d (List.mem_cons_of_mem c hd))
    rw [outlierStep]
    by_cases hc : hasCol T c
    · rw [if_pos hc, List.length_zipWith, colFlags, List.length_map,
        hr c (List.mem_cons_self c cs) hc, h, min_self]
    · rw [if_neg hc]; exact h

lemma outlier_fold_getD (T : Table) (t : ℚ) (n : ℕ) (cols : List String)
    (hr : ∀ c ∈ cols, hasCol T c = true → (getColD T c).length = n) (i : ℕ) (hi : i < n) :
    ∀ acc : List Bool, acc.length = n →
      (cols.foldl (outlierStep T t) acc).getD i false
        = (acc.getD i false
            || cols.any (fun c => hasCol T c && (colFlags (getColD T c) t).getD i false)) := by
  induction cols with
  | nil => intro acc h; simp
  | cons c cs ih =>
    intro acc h
    rw [List.foldl_cons, List.any_cons]
    by_cases hc : hasCol T c
    · have hflen : (colFlags (getColD T c) t).length = n := by
        rw [colFlags, List.length_map]
        exact hr c (List.mem_cons_self c cs) hc
      have hstep : (outlierStep T t acc c).length = n := by
        rw [outlierStep, if_pos hc, List.length_zipWith, hflen, h, min_self]
      rw [ih (fun d hd => hr d (List.mem_cons_of_mem c hd)) _ hstep]
      rw [outlierStep, if_pos hc,
        getD_zipWith_or _ _ i (by rw [h]; exact hi) (by rw [hflen]; exact hi)]
      simp [hc, Bool.or_assoc]
    · rw [ih (fun d hd => hr d (List.mem_cons_of_mem c hd)) _ (by rw [outlierStep, if_neg hc]; exact h)]
      rw [outlierStep, if_neg hc]
      have hfalse : hasCol T c = false := Bool.eq_false_iff.2 hc
      simp [hfalse]

lemma getD_map_flag (l : List ℚ) (t : ℚ) (i : ℕ) (hi : i < l.length) :
    (colFlags l t).getD i false = flagValue l t (l.getD i 0) := by
  rw [colFlags,
    List.getD_eq_getElem _ _ (by rw [List.length_map]; exact hi),
    List.getD_eq_getElem _ _ hi, List.getElem_map]

/-- Shared characterization of `identify_outliers`: length preservation and
the row-level flag condition. -/
lemma identify_outliers_char (T : Table) (cols : List String) (t : ℚ) (n : ℕ)
    (hr : ∀ c ∈ cols, hasCol T c = true → (getColD T c).length = n) :
    (identify_outliers T cols t n).length = n
    ∧ ∀ i, i < n →
        ((identify_outliers T cols t n).getD i false = true ↔
          ∃ c ∈ cols, ∃ l, getCol T c = some l
            ∧ t * |t| * colVar l < (l.getD i 0 - colMean l) ^ 2) := by
  constructor
  · exact outlier_fold_length T t n cols hr _ (List.length_replicate n false)
  · intro i hi
    rw [identify_outliers,
      outlier_fold_getD T t n cols hr i hi _ (List.length_replicate n false)]
    have hrep : (List.replicate n false).getD i false = false := by
      rw [List.getD_eq_getElem _ _ (by rw [List.length_replicate]; exact hi)]
      simp
    rw [hrep, Bool.false_or, List.any_eq_true]
    constructor
    · rintro ⟨c, hc, hcc⟩
      rw [Bool.and_eq_true] at hcc
      obtain ⟨hhas, hflag⟩ := hcc
      obtain ⟨l, hl⟩ := hasCol_iff_getCol.1 hhas
      have hld : getColD T c = l := by rw [getColD, hl]; rfl
      have hlen : l.length = n := by rw [← hld]; exact hr c hc hhas
      refine ⟨c, hc, l, hl, ?_⟩
      rw [hld] at hflag
      rw [getD_map_flag l t i (by rw [hlen]; exact hi)] at hflag
      exact decide_eq_true_iff.1 hflag
    · rintro ⟨c, hc, l, hl, hlt⟩
      have hhas : hasCol T c = true := hasCol_iff_getCol.2 ⟨l, hl⟩
      have hld : getColD T c = l := by rw [getColD, hl]; rfl
      have hlen : l.length = n := by rw [← hld]; exact hr c hc hhas
      refine ⟨c, hc, ?_⟩
      rw [Bool.and_eq_true]
      refine ⟨hhas, ?_⟩
      rw [hld, getD_map_flag l t i (by rw [hlen]; exact hi)]
      exact decide_eq_true_iff.2 hlt

lemma colVar_nonneg (l : List ℚ) : 0 ≤ colVar l := by
  rcases l with _ | ⟨a, l'⟩
  · simp [colVar, colMean]
  · apply div_nonneg
    · apply List.sum_nonneg
      intro x hx
      obtain ⟨y, _, hy⟩ := List.mem_map.1 hx
      rw [← hy]
      positivity
    · have h1 : (1 : ℚ) ≤ ((a :: l').length : ℚ) := by
        have := List.length_pos.2 (List.cons_ne_nil a l')
        exact_mod_cast this
      linarith

lemma mul_abs_mono {t1 t2 : ℚ} (h : t1 ≤ t2) : t1 * |t1| ≤ t2 * |t2| := by
  rcases abs_cases t1 with ⟨h1, h1s⟩ | ⟨h1, h1s⟩ <;>
    rcases abs_cases t2 with ⟨h2, h2s⟩ | ⟨h2, h2s⟩ <;> rw [h1, h2] <;> nlinarith

lemma count_true_le (a : List Bool) :
    ∀ b : List Bool, a.length = b.length →
      (∀ i, i < a.length → a.getD i false = true → b.getD i false = true) →
      a.count true ≤ b.count true := by
  induction a with
  | nil => intro b _ _; simp
  | cons x xs ih =>
    intro b hlen hpt
    rcases b with _ | ⟨y, ys⟩
    · simp at hlen
    · have h0 := hpt 0 (by simp)
      have htail : xs.count true ≤ ys.count true := by
        apply ih ys (by simpa using hlen)
        intro i hi hx
        exact hpt (i + 1) (by simpa using Nat.succ_lt_succ hi) hx
      rcases Bool.eq_false_or_eq_true x with hx | hx
      · subst hx
        have hy : y = true := h0 rfl
        subst hy
        have h1 : (true :: xs).count true = xs.count true + 1 := by simp
        have h2 : (true :: ys).count true = ys.count true + 1 := by simp
        omega
      · subst hx
        have he : (false :: xs).count true = xs.count true := by simp
        have hyc : ys.count true ≤ (y :: ys).count true := by
          rcases Bool.eq_false_or_eq_true y with hy | hy <;> subst hy <;> simp
        rw [he]
        exact le_trans htail hyc

lemma sum_sq_eq_zero {m : ℚ} : ∀ {l : List ℚ},
    (l.map (fun x => (x - m) ^ 2)).sum = 0 → ∀ v ∈ l, v = m := by
  intro l
  induction l with
  | nil => intro _ v hv; cases hv
  | cons a l' ih =>
    intro h v hv
    rw [List.map_cons, List.sum_cons] at h
    have hrest : 0 ≤ (l'.map (fun x => (x - m) ^ 2)).sum := by
      apply List.sum_nonneg
      intro x hx
      obtain ⟨y, _, hy⟩ := List.mem_map.1 hx
      rw [← hy]; positivity
    have ha : (a - m) ^ 2 = 0 := by nlinarith [sq_nonneg (a - m)]
    rcases List.mem_cons.1 hv with hva | hvl
    · rw [hva]
      have := pow_eq_zero_iff (n := 2) (by norm_num) |>.1 ha
      linarith [sub_eq_zero.1 this]
    · exact ih (by linarith) v hvl

lemma colVar_eq_zero_const {l : List ℚ} (h : colVar l = 0) : ∀ v ∈ l, v = colMean l := by
  rcases l with _ | ⟨a, l'⟩
  · intro v hv; cases hv
  · rcases l' with _ | ⟨b, l''⟩
    · intro v hv
      rcases List.mem_singleton.1 hv with rfl
      simp [colMean]
    · rw [colVar] at h
      have hlen : (((a :: b :: l'').length : ℚ) - 1) ≠ 0 := by
        simp only [List.length_cons]
        push_cast
        have h0 : (0 : ℚ) ≤ (l''.length : ℚ) := Nat.cast_nonneg _
        intro he
        nlinarith
      have hnum : (((a :: b :: l'').map (fun x => (x - colMean (a :: b :: l'')) ^ 2)).sum) = 0 :=
        (div_eq_zero_iff.1 h).resolve_right hlen
      exact sum_sq_eq_zero hnum

lemma foldl_outlierStep_skip {T : Table} {cols : List String} (t : ℚ)
    (h : ∀ c ∈ cols, hasCol T c = false) :
    ∀ acc : List Bool, cols.foldl (outlierStep T t) acc = acc := by
  induction cols with
  | nil => intro acc; rfl
  | cons c cs ih =>
    intro acc
    rw [List.foldl_cons]
    have hc : hasCol T c = false := h c (List.mem_cons_self c cs)
    rw [outlierStep, hc]
    simp only [Bool.false_eq_true, if_false]
    exact ih (fun d hd => h d (List.mem_cons_of_mem c hd)) acc

lemma uniqueFuel_mem : ∀ (n : ℕ) (l : List String), l.length ≤ n →
    ∀ v, v ∈ uniqueFuel n l ↔ v ∈ l := by
  intro n
  induction n with
  | zero =>
    intro l hl v
    rw [Nat.le_zero, List.length_eq_zero] at hl
    subst hl
    simp [uniqueFuel]
  | succ n ih =>
    intro l hl v
    rcases l with _ | ⟨a, l'⟩
    · simp [uniqueFuel]
    · rw [uniqueFuel]
      have hlen : (l'.filter (fun x => !(x == a))).length ≤ n := by
        have h1 := List.length_filter_le (fun x => !(x == a)) l'
        have h2 : l'.length ≤ n := by simpa using hl
        omega
      rw [List.mem_cons, ih _ hlen v, List.mem_filter, List.mem_cons]
      by_cases hva : v = a
      · simp [hva]
      · simp [hva]

lemma uniqueFuel_nodup : ∀ (n : ℕ) (l : List String), l.length ≤ n →
    (uniqueFuel n l).Nodup := by
  intro n
  induction n with
  | zero => intro l _; simp [uniqueFuel]
  | succ n ih =>
    intro l hl
    rcases l with _ | ⟨a, l'⟩
    · simp [uniqueFuel]
    · rw [uniqueFuel]
      have hlen : (l'.filter (fun x => !(x == a))).length ≤ n := by
        have h1 := List.length_filter_le (fun x => !(x == a)) l'
        have h2 : l'.length ≤ n := by simpa using hl
        omega
      refine List.nodup_cons.2 ⟨?_, ih _ hlen⟩
      intro hmem
      rw [uniqueFuel_mem n _ hlen a, List.mem_filter] at hmem
      simp at hmem

/-- Filtering preserves the relative order of first occurrences. -/
lemma indexOf_filter_lt (p : String → Bool) : ∀ (l : List String) (v w : String),
    v ∈ l.filter p → w ∈ l.filter p →
    ((l.filter p).indexOf v < (l.filter p).indexOf w ↔ l.indexOf v < l.indexOf w) := by
  intro l
  induction l with
  | nil => intro v w hv _; simp at hv
  | cons b l' ih =>
    intro v w hv hw
    by_cases hpb : p b
    · rw [List.filter_cons_of_pos hpb] at hv hw ⊢
      by_cases hvb : v = b
      · subst hvb
        rw [List.indexOf_cons_self, List.indexOf_cons_self]
        by_cases hwb : w = v
        · subst hwb; simp
        · rw [List.indexOf_cons_ne _ (fun h => hwb h.symm),
            List.indexOf_cons_ne _ (fun h => hwb h.symm)]
          simp
      · by_cases hwb : w = b
        · subst hwb
          rw [List.indexOf_cons_self, List.indexOf_cons_self,
            List.indexOf_cons_ne _ (fun h => hvb h.symm),
            List.indexOf_cons_ne _ (fun h => hvb h.symm)]
          simp
        · rw [List.indexOf_cons_ne _ (fun h => hvb h.symm),
            List.indexOf_cons_ne _ (fun h => hwb h.symm),
            List.indexOf_cons_ne _ (fun h => hvb h.symm),
            List.indexOf_cons_ne _ (fun h => hwb h.symm)]
          have hv' : v ∈ l'.filter p := by
            rcases List.mem_cons.1 hv with h | h
            · exact absurd h hvb
            · exact h
          have hw' : w ∈ l'.filter p := by
            rcases List.mem_cons.1 hw with h | h
            · exact absurd h hwb
            · exact h
          rw [Nat.succ_lt_succ_iff, Nat.succ_lt_succ_iff]
          exact ih v w hv' hw'
    · rw [List.filter_cons_of_neg hpb] at hv hw ⊢
      have hvb : v ≠ b := by
        intro h
        subst h
        exact hpb (List.of_mem_filter hv)
      have hwb : w ≠ b := by
        intro h
        subst h
        exact hpb (List.of_mem_filter hw)
      rw [List.indexOf_cons_ne _ (fun h => hvb h.symm),
        List.indexOf_cons_ne _ (fun h => hwb h.symm),
        Nat.succ_lt_succ_iff]
      exact ih v w hv hw

lemma uniqueFuel_pairwise : ∀ (n : ℕ) (l : List String), l.length ≤ n →
    (uniqueFuel n l).Pairwise (fun a b => l.indexOf a < l.indexOf b) := by
  intro n
  induction n with
  | zero => intro l _; simp [uniqueFuel]
  | succ n ih =>
    intro l hl
    rcases l with _ | ⟨a, l'⟩
    · simp [uniqueFuel]
    · rw [uniqueFuel]
      have hlen : (l'.filter (fun x => !(x == a))).length ≤ n := by
        have h1 := List.length_filter_le (fun x => !(x == a)) l'
        have h2 : l'.length ≤ n := by simpa using hl
        omega
      refine List.pairwise_cons.2 ⟨?_, ?_⟩
      · intro b hb
        rw [uniqueFuel_mem n _ hlen b, List.mem_filter] at hb
        have hba : b ≠ a := by simpa using hb.2
        rw [List.indexOf_cons_self, List.indexOf_cons_ne _ (fun h => hba h.symm)]
        simp
      · have hp := ih _ hlen
        apply List.Pairwise.imp_of_mem ?_ hp
        intro x y hx hy hxy
        rw [uniqueFuel_mem n _ hlen] at hx hy
        have hxa : x ≠ a := by
          have := List.of_mem_filter hx; simpa using this
        have hya : y ≠ a := by
          have := List.of_mem_filter hy; simpa using this
        rw [List.indexOf_cons_ne _ (fun h => hxa h.symm),
          List.indexOf_cons_ne _ (fun h => hya h.symm), Nat.succ_lt_succ_iff]
        exact (indexOf_filter_lt _ l' x y hx hy).1 hxy

lemma getOCol_fill_col (T : OTable) (c d : String) :
    getOCol (fill_col T c) d
      = if d = c then (getOCol T d).map fillna else getOCol T d := by
  rw [getOCol, fill_col, List.find?_map]
  have hpred : ((fun p : String × List (Option ℚ) => p.1 == d) ∘
      (fun p : String × List (Option ℚ) => if p.1 == c then (p.1, fillna p.2) else p))
      = fun p : String × List (Option ℚ) => p.1 == d := by
    funext p
    simp only [Function.comp]
    split <;> rfl
  rw [hpred]
  cases hfind : T.find? (fun p => p.1 == d) with
  | none => split <;> simp [getOCol, hfind]
  | some q =>
    have hq : q.1 = d := by
      have := List.find?_some hfind
      simpa using this
    by_cases hdc : d = c
    · subst hdc
      simp [getOCol, hfind, hq]
    · have hqc : (q.1 == c) = false := by
        rw [hq]
        exact beq_false_of_ne hdc
      simp [getOCol, hfind, hqc, hdc, hq]

lemma minD_cons_ne_none (d : ℤ) (l : List ℤ) : minD (d :: l) ≠ none := by
  rw [minD]
  rcases minD l with _ | m <;> simp

lemma minD_le : ∀ {l : List ℤ} {m : ℤ}, minD l = some m → ∀ x ∈ l, m ≤ x := by
  intro l
  induction l with
  | nil => intro m h; cases h
  | cons d l' ih =>
    intro m h x hx
    rw [minD] at h
    rcases hmin : minD l' with _ | m'
    · rw [hmin] at h
      simp only [Option.some.injEq] at h
      subst h
      have hl' : l' = [] := by
        rcases l' with _ | ⟨e, l''⟩
        · rfl
        · exact absurd hmin (minD_cons_ne_none e l'')
      subst hl'
      rcases List.mem_cons.1 hx with rfl | hx'
      · exact le_refl x
      · cases hx'
    · rw [hmin] at h
      simp only [Option.some.injEq] at h
      subst h
      rcases List.mem_cons.1 hx with rfl | hx'
      · exact min_le_left _ _
      · exact le_trans (min_le_right _ _) (ih hmin x hx')

lemma minD_mem : ∀ {l : List ℤ} {m : ℤ}, minD l = some m → m ∈ l := by
  intro l
  induction l with
  | nil => intro m h; cases h
  | cons d l' ih =>
    intro m h
    rw [minD] at h
    rcases hmin : minD l' with _ | m'
    · rw [hmin] at h
      simp only [Option.some.injEq] at h
      subst h
      exact List.mem_cons_self _ _
    · rw [hmin] at h
      simp only [Option.some.injEq] at h
      subst h
      rcases min_cases d m' with ⟨he, _⟩ | ⟨he, _⟩
      · rw [he]; exact List.mem_cons_self _ _
      · rw [he]; exact List.mem_cons_of_mem _ (ih hmin)

lemma minD_of_ne_nil : ∀ {l : List ℤ}, l ≠ [] → ∃ m, minD l = some m := by
  intro l hl
  rcases l with _ | ⟨d, l'⟩
  · exact absurd rfl hl
  · rw [minD]
    rcases minD l' with _ | m'
    · exact ⟨d, rfl⟩
    · exact ⟨min d m', rfl⟩

lemma find?_append_of_none {α : Type} {p : α → Bool} {as bs : List α}
    (h : as.find? p = none) : (as ++ bs).find? p = bs.find? p := by
  induction as with
  | nil => rfl
  | cons a as' ih =>
    by_cases hpa : p a = true
    · rw [List.find?_cons_of_pos _ hpa] at h
      cases h
    · have hfa : ¬ p a = true := hpa
      rw [List.find?_cons_of_neg _ hfa] at h
      rw [List.cons_append, List.find?_cons_of_neg _ hfa]
      exact ih h

lemma find?_filter_none_of_fresh {T : DTable} {c : String} (q : String × List ℤ → Bool)
    (h : hasDateCol T c = false) :
    (T.filter q).find? (fun p => p.1 == c) = none := by
  rw [List.find?_eq_none]
  intro p hp hpc
  have hpT : p ∈ T := List.mem_of_mem_filter hp
  have htrue : hasDateCol T c = true := List.any_eq_true.2 ⟨p, hpT, hpc⟩
  rw [h] at htrue
  cases htrue

/-- C1: the date normalizer computes one reference date equal to the single
global minimum across the union of the three date columns, replaces each date
with its day offset from the reference (so every offset is nonnegative and the
entry holding the global minimum maps to exactly 0), and removes the original
date columns. -/
theorem date_stage_spec (T : DTable)
    (hne : ∃ c ∈ dateCols, getDateCol T c ≠ [])
    (hfresh : ∀ c ∈ dateCols, hasDateCol T (c ++ "_days") = false) :
    ∃ r, reference_date T = some r
      ∧ (∀ c ∈ dateCols, ∀ d ∈ getDateCol T c, r ≤ d)
      ∧ (∃ c ∈ dateCols, r ∈ getDateCol T c)
      ∧ (∀ c ∈ dateCols,
          getDateCol (date_stage T) (c ++ "_days") = (getDateCol T c).map (fun d => d - r))
      ∧ (∀ c ∈ dateCols, ∀ x ∈ getDateCol (date_stage T) (c ++ "_days"), 0 ≤ x)
      ∧ (∃ c ∈ dateCols, (0 : ℤ) ∈ getDateCol (date_stage T) (c ++ "_days"))
      ∧ (∀ c ∈ dateCols, hasDateCol (date_stage T) c = false) := by
  obtain ⟨c0, hc0, hcol0⟩ := hne
  obtain ⟨m0, hm0⟩ := minD_of_ne_nil hcol0
  have hm0mem : m0 ∈ (dateCols.map (fun c => minD (getDateCol T c))).filterMap id :=
    List.mem_filterMap.2 ⟨some m0, List.mem_map.2 ⟨c0, hc0, hm0⟩, rfl⟩
  obtain ⟨r, hr⟩ := minD_of_ne_nil (List.ne_nil_of_mem hm0mem)
  have hrefr : reference_date T = some r := hr
  have hle : ∀ c ∈ dateCols, ∀ d ∈ getDateCol T c, r ≤ d := by
    intro c hc d hd
    obtain ⟨mc, hmc⟩ := minD_of_ne_nil (List.ne_nil_of_mem hd)
    have hmcmem : mc ∈ (dateCols.map (fun c => minD (getDateCol T c))).filterMap id :=
      List.mem_filterMap.2 ⟨some mc, List.mem_map.2 ⟨c, hc, hmc⟩, rfl⟩
    exact le_trans (minD_le hr mc hmcmem) (minD_le hmc d hd)
  have hattain : ∃ c ∈ dateCols, r ∈ getDateCol T c := by
    obtain ⟨o, ho, hid⟩ := List.mem_filterMap.1 (minD_mem hr)
    obtain ⟨c, hc, hfc⟩ := List.mem_map.1 ho
    refine ⟨c, hc, minD_mem ?_⟩
    rw [hfc]
    exact hid
  have hstage0 : date_stage T
      = (T ++ dateCols.map (fun c => (c ++ "_days", to_days r (getDateCol T c)))).filter
          (fun p => !(dateCols.contains p.1)) := by
    rw [date_stage, hrefr]
  have hstage : date_stage T
      = (T.filter (fun p => !(dateCols.contains p.1))
          ++ (dateCols.map (fun c => (c ++ "_days", to_days r (getDateCol T c)))).filter
              (fun p => !(dateCols.contains p.1))) := by
    rw [hstage0, List.filter_append]
  have hdays : ∀ c ∈ dateCols,
      getDateCol (date_stage T) (c ++ "_days") = (getDateCol T c).map (fun d => d - r) := by
    intro c hc
    rw [hstage, getDateCol,
      find?_append_of_none (find?_filter_none_of_fresh _ (hfresh c hc))]
    rcases (by simpa [dateCols] using hc : c = "founded_at" ∨ c = "first_funding_at"
        ∨ c = "last_funding_at") with rfl | rfl | rfl <;> rfl
  refine ⟨r, hrefr, hle, hattain, hdays, ?_, ?_, ?_⟩
  · intro c hc x hx
    rw [hdays c hc] at hx
    obtain ⟨d, hd, hdx⟩ := List.mem_map.1 hx
    rw [← hdx]
    have := hle c hc d hd
    omega
  · obtain ⟨c, hc, hrc⟩ := hattain
    refine ⟨c, hc, ?_⟩
    rw [hdays c hc]
    exact List.mem_map.2 ⟨r, hrc, by ring⟩
  · intro c hc
    rw [hstage, ← List.filter_append, hasDateCol, Bool.eq_false_iff]
    intro htrue
    obtain ⟨p, hp, hpc⟩ := List.any_eq_true.1 htrue
    have hq := List.of_mem_filter hp
    have hpc' : p.1 = c := by simpa using hpc
    rw [hpc'] at hq
    have hcontains : dateCols.contains c = true := by
      rw [List.contains]
      exact List.elem_iff.2 hc
    rw [hcontains] at hq
    cases hq

/-- Witness for `date_stage_spec` on a concrete three-column date table. -/
theorem date_stage_spec_witness :
    (∃ c ∈ dateCols, getDateCol dateWitnessTable c ≠ [])
    ∧ (∀ c ∈ dateCols, hasDateCol dateWitnessTable (c ++ "_days") = false)
    ∧ ∃ r, reference_date dateWitnessTable = some r
        ∧ (∀ c ∈ dateCols, ∀ d ∈ getDateCol dateWitnessTable c, r ≤ d)
        ∧ (∃ c ∈ dateCols, r ∈ getDateCol dateWitnessTable c)
        ∧ (∀ c ∈ dateCols,
            getDateCol (date_stage dateWitnessTable) (c ++ "_days")
              = (getDateCol dateWitnessTable c).map (fun d => d - r))
        ∧ (∀ c ∈ dateCols, ∀ x ∈ getDateCol (date_stage dateWitnessTable) (c ++ "_days"), 0 ≤ x)
        ∧ (∃ c ∈ dateCols, (0 : ℤ) ∈ getDateCol (date_stage dateWitnessTable) (c ++ "_days"))
        ∧ (∀ c ∈ dateCols, hasDateCol (date_stage dateWitnessTable) c = false) :=
  ⟨by decide, by decide, date_stage_spec dateWitnessTable (by decide) (by decide)⟩

/-- C2: a row is flagged by `identify_outliers` with threshold `t` if and only
if, for at least one monitored column present in the table (with mean `μ` and
sample standard deviation `σ`), the row's value `v` satisfies `|v − μ| > t·σ`
(embedded as `t·|t|·σ² < (v − μ)²`); the per-column flags are combined with
logical OR into a single boolean column carrying one entry per row. -/
theorem identify_outliers_spec (T : Table) (cols : List String) (t : ℚ) (n : ℕ)
    (hr : ∀ c ∈ cols, hasCol T c = true → (getColD T c).length = n) :
    (identify_outliers T cols t n).length = n
    ∧ ∀ i, i < n →
        ((identify_outliers T cols t n).getD i false = true ↔
          ∃ c ∈ cols, ∃ l, getCol T c = some l
            ∧ t * |t| * colVar l < (l.getD i 0 - colMean l) ^ 2) :=
  identify_outliers_char T cols t n hr

/-- Witness for `identify_outliers_spec` on a concrete one-column table. -/
theorem identify_outliers_spec_witness :
    (∀ c ∈ ["x"], hasCol outlierWitnessTable c = true →
        (getColD outlierWitnessTable c).length = 5)
    ∧ (identify_outliers outlierWitnessTable ["x"] 1 5).length = 5 :=
  ⟨by decide, (identify_outliers_spec outlierWitnessTable ["x"] 1 5 (by decide)).1⟩

/-- C3: `create_mapping` assigns integer codes 0, 1, 2, … to the distinct
values in the order of their first occurrence scanning the column top to
bottom, rewrites every occurrence with its code (`encode_column`), and is
deterministic; every distinct value gets exactly one code and every code is
used by at least one row. -/
theorem create_mapping_first_occurrence (l : List String) :
    (∀ l', l = l' → ∀ v, create_mapping l v = create_mapping l' v)
    ∧ (unique_values l).Pairwise (fun a b => l.indexOf a < l.indexOf b)
    ∧ (∀ v, v ∈ unique_values l ↔ v ∈ l)
    ∧ (∀ v ∈ l, ∀ w ∈ l, (create_mapping l v = create_mapping l w ↔ v = w))
    ∧ (∀ v ∈ l, create_mapping l v < (unique_values l).length)
    ∧ (∀ i, i < (unique_values l).length → i ∈ encode_column l) := by
  have hmem : ∀ v, v ∈ unique_values l ↔ v ∈ l :=
    uniqueFuel_mem l.length l (le_refl _)
  have hnodup : (unique_values l).Nodup :=
    uniqueFuel_nodup l.length l (le_refl _)
  refine ⟨fun l' hl v => by rw [hl], uniqueFuel_pairwise l.length l (le_refl _), hmem,
    ?_, ?_, ?_⟩
  · intro v hv w hw
    rw [create_mapping, create_mapping]
    exact List.indexOf_inj ((hmem v).2 hv) ((hmem w).2 hw)
  · intro v hv
    rw [create_mapping]
    exact List.indexOf_lt_length.2 ((hmem v).2 hv)
  · intro i hi
    set v := (unique_values l).get ⟨i, hi⟩ with hv
    have hvmem : v ∈ unique_values l := List.get_mem _ i hi
    have hcode : create_mapping l v = i := by
      rw [create_mapping]
      have h1 : (unique_values l).indexOf v < (unique_values l).length :=
        List.indexOf_lt_length.2 hvmem
      have h2 : (unique_values l).get ⟨(unique_values l).indexOf v, h1⟩ = v :=
        List.indexOf_get h1
      have h3 := (List.Nodup.get_inj_iff hnodup).1 (h2.trans hv)
      exact congrArg Fin.val h3
    rw [encode_column]
    exact List.mem_map.2 ⟨v, (hmem v).1 hvmem, hcode⟩

/-- C4: `fillna` with the column mean fills every missing entry with the
arithmetic mean over the non-missing values computed before any replacement,
leaves non-missing entries unchanged, and produces a column with no missing
values; the imputation stage does not touch the `closed_at` column and
rewrites exactly the two designated age columns. -/
theorem fillna_mean_imputation (l : List (Option ℚ)) (T : OTable)
    (hnm : ∃ v : ℚ, some v ∈ l) :
    colMeanOpt l = some ((l.filterMap id).sum / ((l.filterMap id).length : ℚ))
    ∧ (∀ x ∈ fillna l, x ≠ none)
    ∧ (∀ i, i < l.length → l.getD i none = none → (fillna l).getD i none = colMeanOpt l)
    ∧ (∀ i (v : ℚ), l.getD i none = some v → (fillna l).getD i none = some v)
    ∧ getOCol (impute_stage T) ("closed_at") = getOCol T ("closed_at")
    ∧ (∀ c, c = "age_first_milestone_year" ∨ c = "age_last_milestone_year" →
        getOCol (impute_stage T) c = (getOCol T c).map fillna) := by
  obtain ⟨v, hv⟩ := hnm
  have hvmem : v ∈ l.filterMap id := List.mem_filterMap.2 ⟨some v, hv, rfl⟩
  have hlen : (l.filterMap id).length ≠ 0 := by
    intro h0
    rw [List.length_eq_zero] at h0
    rw [h0] at hvmem
    cases hvmem
  have hmean : colMeanOpt l = some ((l.filterMap id).sum / ((l.filterMap id).length : ℚ)) := by
    rw [colMeanOpt, if_neg hlen]
  have hfill : fillna l
      = l.map (fun x => some (x.getD ((l.filterMap id).sum / ((l.filterMap id).length : ℚ)))) := by
    rw [fillna, hmean]
  refine ⟨hmean, ?_, ?_, ?_, ?_, ?_⟩
  · intro x hx
    rw [hfill] at hx
    obtain ⟨y, _, hy⟩ := List.mem_map.1 hx
    rw [← hy]
    exact Option.some_ne_none _
  · intro i hi hnone
    rw [hfill]
    rw [List.getD_eq_getElem _ _ (by rw [List.length_map]; exact hi), List.getElem_map]
    rw [List.getD_eq_getElem _ _ hi] at hnone
    rw [hnone, hmean]
    rfl
  · intro i v' hsome
    have hi : i < l.length := by
      by_contra hge
      rw [List.getD_eq_default _ _ (le_of_not_lt hge)] at hsome
      cases hsome
    rw [hfill]
    rw [List.getD_eq_getElem _ _ (by rw [List.length_map]; exact hi), List.getElem_map]
    rw [List.getD_eq_getElem _ _ hi] at hsome
    rw [hsome]
    rfl
  · rw [impute_stage, getOCol_fill_col, if_neg (by decide), getOCol_fill_col,
      if_neg (by decide)]
  · intro c hc
    rcases hc with hc | hc <;> subst hc
    · rw [impute_stage, getOCol_fill_col, if_neg (by decide), getOCol_fill_col,
        if_pos rfl]
    · rw [impute_stage, getOCol_fill_col, if_pos rfl, getOCol_fill_col,
        if_neg (by decide)]

/-- Witness for `fillna_mean_imputation` on a concrete column with one
missing value. -/
theorem fillna_mean_imputation_witness :
    (∃ v : ℚ, some v ∈ [some (1 : ℚ), none, some 3])
    ∧ ∀ x ∈ fillna [some (1 : ℚ), none, some 3], x ≠ none :=
  ⟨⟨1, by simp⟩,
    (fillna_mean_imputation [some (1 : ℚ), none, some 3] [] ⟨1, by simp⟩).2.1⟩

/-- C5 counterexample: invoking the sign normalizer or the outlier flagger
with columns absent from the table does not raise any error: on a table with
only a `funding_rounds` column, `apply_absolute_values` returns the table
unchanged and `identify_outliers` returns an all-false flag column — the
absent columns are silently skipped by the membership guards in the source. -/
theorem absent_column_no_error :
    apply_absolute_values [("funding_rounds", [(1 : ℚ), 2])] columns_to_abs
        = [("funding_rounds", [(1 : ℚ), 2])]
    ∧ identify_outliers [("funding_rounds", [(1 : ℚ), 2])] columns_to_abs 4 2
        = [false, false] := by
  constructor <;> rfl

/-- C5 (amended): if every referenced column is absent from the table, the
sign normalizer leaves the table unchanged and the outlier flagger produces
the all-false flag column: absent columns are silently skipped, no error is
raised. -/
theorem absent_columns_silently_skipped (T : Table) (cols : List String) (t : ℚ) (n : ℕ)
    (h : ∀ c ∈ cols, hasCol T c = false) :
    apply_absolute_values T cols = T
    ∧ identify_outliers T cols t n = List.replicate n false := by
  constructor
  · rw [apply_abs_eq]
    conv_rhs => rw [← List.map_id T]
    apply List.map_congr_left
    intro p hp
    have hnot : p.1 ∉ cols := by
      intro hmem
      have h2 := hasCol_of_mem hp
      rw [h p.1 hmem] at h2
      exact Bool.false_ne_true h2
    simp [hnot]
  · exact foldl_outlierStep_skip t h _

/-- Witness for `absent_columns_silently_skipped` on a concrete table without
any of the four age columns. -/
theorem absent_columns_silently_skipped_witness :
    (∀ c ∈ columns_to_abs, hasCol [("avg_participants", [(2 : ℚ)])] c = false)
    ∧ apply_absolute_values [("avg_participants", [(2 : ℚ)])] columns_to_abs
        = [("avg_participants", [(2 : ℚ)])]
    ∧ identify_outliers [("avg_participants", [(2 : ℚ)])] columns_to_abs 4 1
        = List.replicate 1 false := by
  refine ⟨by decide, ?_⟩
  exact absent_columns_silently_skipped [("avg_participants", [(2 : ℚ)])] columns_to_abs 4 1
    (by decide)

/-- C6: a monitored column with zero variance (a constant column) contributes
no outlier flags at any threshold: every per-column flag it produces is
`false`.  The computation is total — no exception and no division by zero
occurs. -/
theorem constant_column_no_outliers (l : List ℚ) (t : ℚ) (h : colVar l = 0) :
    colFlags l t = List.replicate l.length false := by
  rw [colFlags, List.eq_replicate_iff]
  refine ⟨by simp, ?_⟩
  intro b hb
  obtain ⟨v, hv, hfv⟩ := List.mem_map.1 hb
  rw [← hfv, flagValue, h]
  have hvm := colVar_eq_zero_const h v hv
  simp [hvm]

/-- Witness for `constant_column_no_outliers` on a concrete constant
column. -/
theorem constant_column_no_outliers_witness :
    colVar [5, 5, 5] = 0 ∧ colFlags [5, 5, 5] 4 = List.replicate 3 false :=
  ⟨by norm_num [colVar, colMean], constant_column_no_outliers [5, 5, 5] 4
    (by norm_num [colVar, colMean])⟩

/-- C7: the outlier flag is antitone in the threshold: for thresholds
`t1 ≤ t2`, every row flagged at `t2` is also flagged at `t1`, and the number
of flagged rows at `t2` is at most the number at `t1`. -/
theorem identify_outliers_threshold_antitone (T : Table) (cols : List String) (n : ℕ)
    (t1 t2 : ℚ) (h12 : t1 ≤ t2)
    (hr : ∀ c ∈ cols, hasCol T c = true → (getColD T c).length = n) :
    (∀ i, i < n → (identify_outliers T cols t2 n).getD i false = true →
        (identify_outliers T cols t1 n).getD i false = true)
    ∧ (identify_outliers T cols t2 n).count true
        ≤ (identify_outliers T cols t1 n).count true := by
  have hpt : ∀ i, i < n → (identify_outliers T cols t2 n).getD i false = true →
      (identify_outliers T cols t1 n).getD i false = true := by
    intro i hi hflag
    rw [(identify_outliers_char T cols t2 n hr).2 i hi] at hflag
    rw [(identify_outliers_char T cols t1 n hr).2 i hi]
    obtain ⟨c, hc, l, hl, hlt⟩ := hflag
    refine ⟨c, hc, l, hl, ?_⟩
    have := mul_le_mul_of_nonneg_right (mul_abs_mono h12) (colVar_nonneg l)
    linarith
  refine ⟨hpt, ?_⟩
  have hl2 : (identify_outliers T cols t2 n).length = n :=
    (identify_outliers_char T cols t2 n hr).1
  have hl1 : (identify_outliers T cols t1 n).length = n :=
    (identify_outliers_char T cols t1 n hr).1
  apply count_true_le _ _ (by rw [hl1, hl2])
  intro i hi
  exact hpt i (by rw [← hl2]; exact hi)

/-- Witness for `identify_outliers_threshold_antitone` at thresholds 1 ≤ 4. -/
theorem identify_outliers_threshold_antitone_witness :
    (1 : ℚ) ≤ 4
    ∧ (∀ c ∈ ["x"], hasCol outlierWitnessTable c = true →
        (getColD outlierWitnessTable c).length = 5)
    ∧ (identify_outliers outlierWitnessTable ["x"] 4 5).count true
        ≤ (identify_outliers outlierWitnessTable ["x"] 1 5).count true :=
  ⟨by norm_num, by decide,
    (identify_outliers_threshold_antitone outlierWitnessTable ["x"] 5 1 4
      (by norm_num) (by decide)).2⟩

/-- C8: the sign normalizer is idempotent, after one application every value
in the four targeted age columns present in the table is nonnegative, each
targeted column is rewritten to its elementwise absolute value, and a table
whose targeted columns are already nonnegative is left unchanged. -/
theorem apply_absolute_values_idempotent (T : Table) :
    apply_absolute_values (apply_absolute_values T columns_to_abs) columns_to_abs
        = apply_absolute_values T columns_to_abs
    ∧ (∀ c ∈ columns_to_abs,
        getCol (apply_absolute_values T columns_to_abs) c
          = (getCol T c).map (fun l => l.map (fun v => |v|)))
    ∧ (∀ p ∈ apply_absolute_values T columns_to_abs, p.1 ∈ columns_to_abs → ∀ v ∈ p.2, 0 ≤ v)
    ∧ ((∀ p ∈ T, p.1 ∈ columns_to_abs → ∀ v ∈ p.2, 0 ≤ v) →
        apply_absolute_values T columns_to_abs = T) := by
  refine ⟨?_, ?_, ?_, ?_⟩
  · rw [apply_abs_eq, apply_abs_eq, List.map_map]
    apply List.map_congr_left
    intro p _
    simp only [Function.comp]
    by_cases hc : p.1 ∈ columns_to_abs
    · simp [hc, List.map_map, abs_abs, Function.comp]
    · simp [hc]
  · intro c hc
    rw [apply_abs_eq, getCol, List.find?_map]
    have hpred : ((fun p : String × List ℚ => p.1 == c) ∘
        (fun p : String × List ℚ =>
          if p.1 ∈ columns_to_abs then (p.1, p.2.map (fun v => |v|)) else p))
        = fun p : String × List ℚ => p.1 == c := by
      funext p
      simp only [Function.comp]
      split <;> rfl
    rw [hpred]
    cases hfind : T.find? (fun p => p.1 == c) with
    | none => simp [getCol, hfind]
    | some q =>
      have hq : q.1 = c := by simpa using List.find?_some hfind
      simp [getCol, hfind, hq, hc]
  · intro p hp hmem v hv
    rw [apply_abs_eq] at hp
    obtain ⟨q, hq, hfq⟩ := List.mem_map.1 hp
    by_cases hqc : q.1 ∈ columns_to_abs
    · rw [if_pos hqc] at hfq
      rw [← hfq] at hv
      obtain ⟨w, _, hw⟩ := List.mem_map.1 hv
      rw [← hw]
      exact abs_nonneg w
    · rw [if_neg hqc] at hfq
      rw [← hfq] at hmem
      exact absurd hmem hqc
  · intro h
    rw [apply_abs_eq]
    conv_rhs => rw [← List.map_id T]
    apply List.map_congr_left
    intro p hp
    by_cases hc : p.1 ∈ columns_to_abs
    · simp only [hc, if_pos, id]
      rw [map_abs_of_nonneg (h p hp hc)]
    · simp [hc]

/-- C9: on the single monitored column `[1, 2, 3, 4, 100]` with threshold 4
the flagger marks no row: the mean is 22, the sample variance is
`7610/4 = 1902.5`, and `78² = 6084` does not exceed `16 · 1902.5 = 30440`,
so in particular the row with value 100 is not flagged. -/
theorem identify_outliers_small_sample :
    colMean [1, 2, 3, 4, 100] = 22
    ∧ colVar [1, 2, 3, 4, 100] = 3805 / 2
    ∧ ¬ ((4 : ℚ) * |(4 : ℚ)| * colVar [1, 2, 3, 4, 100]
          < ((100 : ℚ) - colMean [1, 2, 3, 4, 100]) ^ 2)
    ∧ identify_outliers [("x", [1, 2, 3, 4, 100])] ["x"] 4 5
        = [false, false, false, false, false] := by
  refine ⟨by norm_num [colMean], by norm_num [colVar, colMean], by norm_num [colVar, colMean], ?_⟩
  norm_num [identify_outliers, outlierStep, hasCol, getColD, getCol, colFlags, flagValue,
    colVar, colMean, List.replicate, List.zipWith]

/-- C10: the log-transform stage never mutates the table: `log(v + 1)` is
computed only into a temporary used for rendering histograms, so every
column — in particular the four age columns later exported by `to_csv` —
is unchanged. -/
theorem log_stage_no_mutation (logf : ℚ → ℚ) (T : Table) :
    (log_stage logf T log_columns).1 = T
    ∧ ∀ c, getCol (log_stage logf T log_columns).1 c = getCol T c :=
  ⟨rfl, fun _ => rfl⟩

end StartupPipeline
